import Mathlib

set_option maxRecDepth 8000

/-!
Verification development for the sei-research account generator.

The repository consists of src/main.go (the BIP39/BIP32/BIP44 derivation
pipeline `generateAccount` and the `main` orchestration loop) and
src/storage.go (the SQLite-backed `AccountStore`).  The cryptographic
primitives that `generateAccount` calls live in external dependencies
(github.com/cosmos/go-bip39 and the cosmos-sdk crypto packages), whose code
is not part of the repository; those are modelled here from the
specification, which describes their algorithmic contracts in detail
(entropy/checksum construction, PBKDF2 seed derivation, HMAC-SHA512 master
and child key derivation, secp256k1 keypairs, hash160 and the bech32-style
address encoding).  Everything that is in src/ is embedded directly.

Bytes are modelled as natural numbers below 256, byte strings as lists of
naturals, and machine words as naturals reduced modulo 2^32 or 2^64 at each
operation.  All definitions are executable.
-/

/-- Model of a Go error value.  `base` is an error created by a library or
by the runtime; `wrap` is the result of fmt.Errorf with a %w verb, which
wraps an existing error inside a new one carrying a context message. -/
inductive GoErr where
  | base : String → GoErr
  | wrap : String → GoErr → GoErr
deriving DecidableEq

deriving instance DecidableEq for Except

/-- Root cause of a (possibly repeatedly wrapped) Go error: what
errors.Unwrap reaches at the bottom of the chain. -/
def GoErr.rootCause : GoErr → GoErr
  | .base m => .base m
  | .wrap _ e => e.rootCause

/-- ASCII bytes of a string (all strings handled by this program are
ASCII, so Char.toNat is the UTF-8 byte value). -/
def strBytes (s : String) : List Nat := s.data.map Char.toNat

/-- Big-endian bytes of a natural number, exactly `w` bytes wide. -/
def toBytesBE : Nat → Nat → List Nat
  | 0, _ => []
  | w + 1, n => toBytesBE w (n / 256) ++ [n % 256]

/-- Big-endian interpretation of a byte list. -/
def fromBytesBE (bs : List Nat) : Nat := bs.foldl (fun a b => a * 256 + b) 0

/-- Little-endian bytes of a natural number, exactly `w` bytes wide. -/
def toBytesLE : Nat → Nat → List Nat
  | 0, _ => []
  | w + 1, n => n % 256 :: toBytesLE w (n / 256)

/-- Little-endian interpretation of a byte list. -/
def fromBytesLE (bs : List Nat) : Nat := bs.foldr (fun b a => a * 256 + b) 0

/-- Big-endian bits of a natural number, exactly `w` bits wide. -/
def natToBits : Nat → Nat → List Bool
  | 0, _ => []
  | w + 1, n => natToBits w (n / 2) ++ [decide (n % 2 = 1)]

/-- Big-endian interpretation of a bit list. -/
def bitsToNat (bs : List Bool) : Nat := bs.foldl (fun a b => 2 * a + cond b 1 0) 0

/-- Fueled worker for chunksOf; structural recursion on the fuel keeps the
function computable inside the kernel. -/
def chunksGo (n : Nat) : Nat → List α → List (List α)
  | 0, _ => []
  | _, [] => []
  | fuel + 1, x :: xs => ((x :: xs).take (n + 1)) :: chunksGo n fuel (xs.drop n)

/-- Splits a list into consecutive chunks of n+1 elements (the last chunk
may be shorter if the length is not a multiple). -/
def chunksOf (n : Nat) (l : List α) : List (List α) := chunksGo n l.length l

/-- Big-endian bit stream of a byte string. -/
def bytesToBits (bs : List Nat) : List Bool := (bs.map (natToBits 8)).flatten

/-- Reassembles a bit stream into bytes, 8 bits at a time, big-endian. -/
def bitsToBytes (bs : List Bool) : List Nat := (chunksOf 7 bs).map bitsToNat

/-- Lower-case hex digits. -/
def hexDigit (n : Nat) : Char := "0123456789abcdef".data.getD n 'x'

/-- Lower-case hex encoding of a byte string (hex.EncodeToString). -/
def hexEncode (bs : List Nat) : String :=
  String.mk ((bs.map (fun b => [hexDigit (b / 16), hexDigit (b % 16)])).flatten)

/-! ## SHA-256, modelled from the FIPS 180-4 standard

Modelled from the spec: BIP39 checksums and the hash160 address digest
both use SHA-256, which is implemented in the Go standard library, not in
this repository.  The round constants are the first 32 bits of the
fractional parts of the cube roots of the first 64 primes, and the initial
state words are the first 32 bits of the fractional parts of the square
roots of the first 8 primes; both are computed here from that definition. -/

/-- Fueled integer binary search for the cube root: largest m in [lo, hi]
with m^3 ≤ x, assuming lo^3 ≤ x. -/
def icbrtGo (x : Nat) : Nat → Nat → Nat → Nat
  | 0, lo, _ => lo
  | fuel + 1, lo, hi =>
    if hi ≤ lo then lo
    else
      let mid := (lo + hi + 1) / 2
      if mid * mid * mid ≤ x then icbrtGo x fuel mid hi else icbrtGo x fuel lo (mid - 1)

/-- Integer cube root. -/
def icbrt (x : Nat) : Nat := icbrtGo x 512 0 x

/-- Fueled integer binary search for the square root: largest m in
[lo, hi] with m^2 ≤ x, assuming lo^2 ≤ x. -/
def isqrtGo (x : Nat) : Nat → Nat → Nat → Nat
  | 0, lo, _ => lo
  | fuel + 1, lo, hi =>
    if hi ≤ lo then lo
    else
      let mid := (lo + hi + 1) / 2
      if mid * mid ≤ x then isqrtGo x fuel mid hi else isqrtGo x fuel lo (mid - 1)

/-- Integer square root. -/
def isqrt (x : Nat) : Nat := isqrtGo x 512 0 x

/-- First 64 primes (for the SHA-256 round constants). -/
def primes64 : List Nat :=
  [2, 3, 5, 7, 11, 13, 17, 19, 23, 29, 31, 37, 41, 43, 47, 53,
   59, 61, 67, 71, 73, 79, 83, 89, 97, 101, 103, 107, 109, 113, 127, 131,
   137, 139, 149, 151, 157, 163, 167, 173, 179, 181, 191, 193, 197, 199, 211, 223,
   227, 229, 233, 239, 241, 251, 257, 263, 269, 271, 277, 281, 283, 293, 307, 311]

/-- Primes 65 to 80 (the additional SHA-512 round constants). -/
def primes65to80 : List Nat :=
  [313, 317, 331, 337, 347, 349, 353, 359, 367, 373, 379, 383, 389, 397, 401, 409]

/-- First `w` bits of the fractional part of the cube root of p. -/
def cbrtFracBits (w : Nat) (p : Nat) : Nat := icbrt (p <<< (3 * w)) % (2 ^ w)

/-- First `w` bits of the fractional part of the square root of p. -/
def sqrtFracBits (w : Nat) (p : Nat) : Nat := isqrt (p <<< (2 * w)) % (2 ^ w)

/-- SHA-256 round constants K. -/
def sha256K : List Nat := primes64.map (cbrtFracBits 32)

/-- Mask to 32 bits. -/
def m32 (n : Nat) : Nat := n % (2 ^ 32)

/-- Right rotation of a 32-bit word. -/
def rotr32 (x n : Nat) : Nat := m32 ((x >>> n) ||| (x <<< (32 - n)))

/-- SHA-256 working state. -/
structure Sha2State where
  a : Nat
  b : Nat
  c : Nat
  d : Nat
  e : Nat
  f : Nat
  g : Nat
  h : Nat

/-- SHA-256 initial state words. -/
def sha256H0 : Sha2State :=
  match (primes64.take 8).map (sqrtFracBits 32) with
  | [a, b, c, d, e, f, g, h] => ⟨a, b, c, d, e, f, g, h⟩
  | _ => ⟨0, 0, 0, 0, 0, 0, 0, 0⟩

/-- One SHA-256 round. -/
def sha256Round (st : Sha2State) (kw : Nat) : Sha2State :=
  let s1 := (rotr32 st.e 6) ^^^ (rotr32 st.e 11) ^^^ (rotr32 st.e 25)
  let ch := (st.e &&& st.f) ^^^ ((st.e ^^^ (2 ^ 32 - 1)) &&& st.g)
  let t1 := m32 (st.h + s1 + ch + kw)
  let s0 := (rotr32 st.a 2) ^^^ (rotr32 st.a 13) ^^^ (rotr32 st.a 22)
  let mj := (st.a &&& st.b) ^^^ (st.a &&& st.c) ^^^ (st.b &&& st.c)
  let t2 := m32 (s0 + mj)
  ⟨m32 (t1 + t2), st.a, st.b, st.c, m32 (st.d + t1), st.e, st.f, st.g⟩

/-- Extends the 16 message words of a block to the full schedule. -/
def sha256ExtendGo (w : List Nat) : Nat → List Nat
  | 0 => w
  | k + 1 =>
    let w2 := sha256ExtendGo w k
    let i := w2.length
    let x15 := w2.getD (i - 15) 0
    let x2 := w2.getD (i - 2) 0
    let s0 := (rotr32 x15 7) ^^^ (rotr32 x15 18) ^^^ (x15 >>> 3)
    let s1 := (rotr32 x2 17) ^^^ (rotr32 x2 19) ^^^ (x2 >>> 10)
    w2 ++ [m32 (w2.getD (i - 16) 0 + s0 + w2.getD (i - 7) 0 + s1)]

/-- Adds two SHA-2 states word-wise, modulo the word size. -/
def sha2Add (mask : Nat → Nat) (x y : Sha2State) : Sha2State :=
  ⟨mask (x.a + y.a), mask (x.b + y.b), mask (x.c + y.c), mask (x.d + y.d),
   mask (x.e + y.e), mask (x.f + y.f), mask (x.g + y.g), mask (x.h + y.h)⟩

/-- SHA-256 compression of one 64-byte block. -/
def sha256Block (st : Sha2State) (block : List Nat) : Sha2State :=
  let w := sha256ExtendGo ((chunksOf 3 block).map fromBytesBE) 48
  let final := (w.zip sha256K).foldl (fun s p => sha256Round s (m32 (p.1 + p.2))) st
  sha2Add m32 st final

/-- Merkle-Damgard padding: 0x80, zeros, then the bit length in a
big-endian field of lw bytes, reaching a multiple of bl bytes. -/
def mdPad (bl lw : Nat) (msg : List Nat) : List Nat :=
  let z := (bl - (msg.length + lw + 1) % bl) % bl
  msg ++ [128] ++ List.replicate z 0 ++ toBytesBE lw (msg.length * 8)

/-- SHA-256 digest of a byte string, as 32 bytes. -/
def sha256 (msg : List Nat) : List Nat :=
  let st := (chunksOf 63 (mdPad 64 8 msg)).foldl sha256Block sha256H0
  toBytesBE 4 st.a ++ toBytesBE 4 st.b ++ toBytesBE 4 st.c ++ toBytesBE 4 st.d ++
    toBytesBE 4 st.e ++ toBytesBE 4 st.f ++ toBytesBE 4 st.g ++ toBytesBE 4 st.h

/-! ## SHA-512, modelled from the FIPS 180-4 standard

Modelled from the spec: the mnemonic-to-seed derivation and the BIP32 key
derivation use HMAC-SHA512; SHA-512 itself lives in the Go standard
library.  Constants are computed from the standard definition exactly as
for SHA-256, but with 64 bits and 80 primes. -/

/-- SHA-512 round constants K. -/
def sha512K : List Nat := (primes64 ++ primes65to80).map (cbrtFracBits 64)

/-- Mask to 64 bits. -/
def m64 (n : Nat) : Nat := n % (2 ^ 64)

/-- Right rotation of a 64-bit word. -/
def rotr64 (x n : Nat) : Nat := m64 ((x >>> n) ||| (x <<< (64 - n)))

/-- SHA-512 initial state words. -/
def sha512H0 : Sha2State :=
  match (primes64.take 8).map (sqrtFracBits 64) with
  | [a, b, c, d, e, f, g, h] => ⟨a, b, c, d, e, f, g, h⟩
  | _ => ⟨0, 0, 0, 0, 0, 0, 0, 0⟩

/-- One SHA-512 round. -/
def sha512Round (st : Sha2State) (kw : Nat) : Sha2State :=
  let s1 := (rotr64 st.e 14) ^^^ (rotr64 st.e 18) ^^^ (rotr64 st.e 41)
  let ch := (st.e &&& st.f) ^^^ ((st.e ^^^ (2 ^ 64 - 1)) &&& st.g)
  let t1 := m64 (st.h + s1 + ch + kw)
  let s0 := (rotr64 st.a 28) ^^^ (rotr64 st.a 34) ^^^ (rotr64 st.a 39)
  let mj := (st.a &&& st.b) ^^^ (st.a &&& st.c) ^^^ (st.b &&& st.c)
  let t2 := m64 (s0 + mj)
  ⟨m64 (t1 + t2), st.a, st.b, st.c, m64 (st.d + t1), st.e, st.f, st.g⟩

/-- Extends the 16 message words of a SHA-512 block to the full schedule. -/
def sha512ExtendGo (w : List Nat) : Nat → List Nat
  | 0 => w
  | k + 1 =>
    let w2 := sha512ExtendGo w k
    let i := w2.length
    let x15 := w2.getD (i - 15) 0
    let x2 := w2.getD (i - 2) 0
    let s0 := (rotr64 x15 1) ^^^ (rotr64 x15 8) ^^^ (x15 >>> 7)
    let s1 := (rotr64 x2 19) ^^^ (rotr64 x2 61) ^^^ (x2 >>> 6)
    w2 ++ [m64 (w2.getD (i - 16) 0 + s0 + w2.getD (i - 7) 0 + s1)]

/-- SHA-512 compression of one 128-byte block. -/
def sha512Block (st : Sha2State) (block : List Nat) : Sha2State :=
  let w := sha512ExtendGo ((chunksOf 7 block).map fromBytesBE) 64
  let final := (w.zip sha512K).foldl (fun s p => sha512Round s (m64 (p.1 + p.2))) st
  sha2Add m64 st final

/-- SHA-512 digest of a byte string, as 64 bytes. -/
def sha512 (msg : List Nat) : List Nat :=
  let st := (chunksOf 127 (mdPad 128 16 msg)).foldl sha512Block sha512H0
  toBytesBE 8 st.a ++ toBytesBE 8 st.b ++ toBytesBE 8 st.c ++ toBytesBE 8 st.d ++
    toBytesBE 8 st.e ++ toBytesBE 8 st.f ++ toBytesBE 8 st.g ++ toBytesBE 8 st.h

/-! ## HMAC-SHA512 and the BIP39 seed (PBKDF2) -/

/-- Byte-wise xor of two byte strings (zipped). -/
def xorBytes (a b : List Nat) : List Nat := a.zipWith (fun x y => x ^^^ y) b

/-- HMAC-SHA512, modelled from the spec (RFC 2104 with SHA-512): the key
is hashed if longer than the 128-byte block, zero-padded to the block
size, xored with the inner and outer pads. -/
def hmacSha512 (key msg : List Nat) : List Nat :=
  let k0 := if 128 < key.length then sha512 key else key
  let kp := k0 ++ List.replicate (128 - k0.length) 0
  sha512 (kp.map (fun b => b ^^^ 0x5c) ++ sha512 (kp.map (fun b => b ^^^ 0x36) ++ msg))

/-- Remaining PBKDF2 iterations: uk is the latest U value, acc the xor of
all U values so far. -/
def pbkdf2Go : Nat → List Nat → List Nat → List Nat → List Nat
  | 0, _, _, acc => acc
  | k + 1, pw, uk, acc =>
    let u2 := hmacSha512 pw uk
    pbkdf2Go k pw u2 (xorBytes acc u2)

/-- Modelled from the spec: bip39.NewSeed applies PBKDF2 with 2048
iterations of HMAC-SHA512 to the mnemonic sentence, salted with the fixed
text mnemonic followed by the passphrase, producing a 64-byte seed (a
single PBKDF2 block, since the output size equals the hash size). -/
def bip39Seed (mnemonic passphrase : String) : List Nat :=
  let pw := strBytes mnemonic
  let u1 := hmacSha512 pw (strBytes ("mnemonic" ++ passphrase) ++ [0, 0, 0, 1])
  pbkdf2Go 2047 pw u1 u1

/-! ## RIPEMD-160

Modelled from the spec: the address digest is hash160, SHA-256 followed by
RIPEMD-160 (implemented in golang.org/x/crypto, not in this repository).
This follows the original RIPEMD-160 description: two parallel lines of 80
steps over 16 little-endian message words, with the published message
orders, shift amounts and round constants. -/

/-- Left rotation of a 32-bit word. -/
def rotl32 (x n : Nat) : Nat := m32 ((x <<< n) ||| (x >>> (32 - n)))

/-- RIPEMD-160 five-word state. -/
structure R5State where
  a : Nat
  b : Nat
  c : Nat
  d : Nat
  e : Nat

/-- RIPEMD-160 initial state. -/
def ripemdH0 : R5State := ⟨0x67452301, 0xefcdab89, 0x98badcfe, 0x10325476, 0xc3d2e1f0⟩

/-- RIPEMD-160 boolean functions, selected by the step index of the left
line (the right line uses them in reverse order). -/
def ripemdFL (j x y z : Nat) : Nat :=
  if j < 16 then x ^^^ y ^^^ z
  else if j < 32 then (x &&& y) ||| ((x ^^^ 0xffffffff) &&& z)
  else if j < 48 then (x ||| (y ^^^ 0xffffffff)) ^^^ z
  else if j < 64 then (x &&& z) ||| (y &&& (z ^^^ 0xffffffff))
  else x ^^^ (y ||| (z ^^^ 0xffffffff))

/-- Right-line boolean function: the left selection reversed. -/
def ripemdFR (j x y z : Nat) : Nat := ripemdFL (79 - j) x y z

/-- Left-line round constants. -/
def ripemdKL (j : Nat) : Nat :=
  if j < 16 then 0 else if j < 32 then 0x5a827999 else if j < 48 then 0x6ed9eba1
  else if j < 64 then 0x8f1bbcdc else 0xa953fd4e

/-- Right-line round constants. -/
def ripemdKR (j : Nat) : Nat :=
  if j < 16 then 0x50a28be6 else if j < 32 then 0x5c4dd124 else if j < 48 then 0x6d703ef3
  else if j < 64 then 0x7a6d76e9 else 0

/-- Left-line message word order. -/
def ripemdRL : List Nat :=
  [0, 1, 2, 3, 4, 5, 6, 7, 8, 9, 10, 11, 12, 13, 14, 15,
   7, 4, 13, 1, 10, 6, 15, 3, 12, 0, 9, 5, 2, 14, 11, 8,
   3, 10, 14, 4, 9, 15, 8, 1, 2, 7, 0, 6, 13, 11, 5, 12,
   1, 9, 11, 10, 0, 8, 12, 4, 13, 3, 7, 15, 14, 5, 6, 2,
   4, 0, 5, 9, 7, 12, 2, 10, 14, 1, 3, 8, 11, 6, 15, 13]

/-- Right-line message word order. -/
def ripemdRR : List Nat :=
  [5, 14, 7, 0, 9, 2, 11, 4, 13, 6, 15, 8, 1, 10, 3, 12,
   6, 11, 3, 7, 0, 13, 5, 10, 14, 15, 8, 12, 4, 9, 1, 2,
   15, 5, 1, 3, 7, 14, 6, 9, 11, 8, 12, 2, 10, 0, 4, 13,
   8, 6, 4, 1, 3, 11, 15, 0, 5, 12, 2, 13, 9, 7, 10, 14,
   12, 15, 10, 4, 1, 5, 8, 7, 6, 2, 13, 14, 0, 3, 9, 11]

/-- Left-line shift amounts. -/
def ripemdSL : List Nat :=
  [11, 14, 15, 12, 5, 8, 7, 9, 11, 13, 14, 15, 6, 7, 9, 8,
   7, 6, 8, 13, 11, 9, 7, 15, 7, 12, 15, 9, 11, 7, 13, 12,
   11, 13, 6, 7, 14, 9, 13, 15, 14, 8, 13, 6, 5, 12, 7, 5,
   11, 12, 14, 15, 14, 15, 9, 8, 9, 14, 5, 6, 8, 6, 5, 12,
   9, 15, 5, 11, 6, 8, 13, 12, 5, 12, 13, 14, 11, 8, 5, 6]

/-- Right-line shift amounts. -/
def ripemdSR : List Nat :=
  [8, 9, 9, 11, 13, 15, 15, 5, 7, 7, 8, 11, 14, 14, 12, 6,
   9, 13, 15, 7, 12, 8, 9, 11, 7, 7, 12, 7, 6, 15, 13, 11,
   9, 7, 15, 11, 8, 6, 6, 14, 12, 13, 5, 14, 13, 13, 7, 5,
   15, 5, 8, 11, 14, 14, 6, 14, 6, 9, 12, 9, 12, 5, 15, 8,
   8, 5, 12, 9, 12, 5, 14, 6, 8, 13, 6, 5, 15, 13, 11, 11]

/-- One line (left or right) of a RIPEMD-160 compression: 80 steps. -/
def ripemdLine (x rTab sTab : List Nat) (fSel kSel : Nat → Nat → Nat → Nat → Nat)
    (st : R5State) : R5State :=
  (List.range 80).foldl (fun s j =>
    let t := m32 (rotl32
      (m32 (s.a + fSel j s.b s.c s.d + x.getD (rTab.getD j 0) 0 + kSel j 0 0 0))
      (sTab.getD j 0) + s.e)
    ⟨s.e, t, s.b, rotl32 s.c 10, s.d⟩) st

/-- RIPEMD-160 compression of one 64-byte block. -/
def ripemd160Block (h : R5State) (block : List Nat) : R5State :=
  let x := (chunksOf 3 block).map fromBytesLE
  let l := ripemdLine x ripemdRL ripemdSL ripemdFL (fun j _ _ _ => ripemdKL j) h
  let r := ripemdLine x ripemdRR ripemdSR ripemdFR (fun j _ _ _ => ripemdKR j) h
  ⟨m32 (h.b + l.c + r.d), m32 (h.c + l.d + r.e), m32 (h.d + l.e + r.a),
   m32 (h.e + l.a + r.b), m32 (h.a + l.b + r.c)⟩

/-- Merkle-Damgard padding with a little-endian length field (RIPEMD and
MD4/MD5 family). -/
def mdPadLE (msg : List Nat) : List Nat :=
  let z := (64 - (msg.length + 9) % 64) % 64
  msg ++ [128] ++ List.replicate z 0 ++ toBytesLE 8 (msg.length * 8)

/-- RIPEMD-160 digest of a byte string, as 20 bytes. -/
def ripemd160 (msg : List Nat) : List Nat :=
  let st := (chunksOf 63 (mdPadLE msg)).foldl ripemd160Block ripemdH0
  toBytesLE 4 st.a ++ toBytesLE 4 st.b ++ toBytesLE 4 st.c ++
    toBytesLE 4 st.d ++ toBytesLE 4 st.e

/-- hash160: SHA-256 followed by RIPEMD-160 (the 20-byte account
fingerprint behind a Cosmos bech32 address). -/
def hash160 (bs : List Nat) : List Nat := ripemd160 (sha256 bs)

/-! ## secp256k1

Modelled from the spec: the keypair lives on the secp256k1 curve (the
implementation is in the cosmos-sdk secp256k1 package, not in this
repository).  Affine Weierstrass arithmetic over the prime field, with the
standard curve parameters. -/

/-- Field prime of secp256k1. -/
def secpP : Nat := 2 ^ 256 - 2 ^ 32 - 977

/-- Group order of secp256k1. -/
def secpN : Nat := 0xfffffffffffffffffffffffffffffffebaaedce6af48a03bbfd25e8cd0364141

/-- Generator x coordinate. -/
def secpGx : Nat := 0x79be667ef9dcbbac55a06295ce870b07029bfcdb2dce28d959f2815b16f81798

/-- Generator y coordinate. -/
def secpGy : Nat := 0x483ada7726a3c4655da4fbfc0e1108a8fd17b448a68554199c47d08ffb10d4b8

/-- Affine point: none is the point at infinity. -/
def ECPoint : Type := Option (Nat × Nat)

/-- Fueled binary modular exponentiation. -/
def powModGo (m : Nat) : Nat → Nat → Nat → Nat → Nat
  | 0, _, _, acc => acc
  | fuel + 1, b, e, acc =>
    if e = 0 then acc
    else powModGo m fuel (b * b % m) (e / 2) (if e % 2 = 1 then acc * b % m else acc)

/-- Binary modular exponentiation (enough fuel for 256-bit exponents). -/
def powMod (b e m : Nat) : Nat := powModGo m 512 (b % m) e (1 % m)

/-- Modular inverse in the secp256k1 field, via the little Fermat
exponentiation. -/
def invModP (a : Nat) : Nat := powMod a (secpP - 2) secpP

/-- Point doubling. -/
def pointDouble : ECPoint → ECPoint
  | none => none
  | some (x, y) =>
    if y = 0 then none
    else
      let s := 3 * x * x % secpP * invModP (2 * y % secpP) % secpP
      let xr := (s * s + 2 * (secpP - x % secpP)) % secpP
      let yr := (s * ((x + secpP - xr) % secpP) + (secpP - y % secpP)) % secpP
      some (xr, yr)

/-- Point addition. -/
def pointAdd : ECPoint → ECPoint → ECPoint
  | none, q => q
  | p, none => p
  | some (x1, y1), some (x2, y2) =>
    if x1 % secpP = x2 % secpP then
      if (y1 + y2) % secpP = 0 then none else pointDouble (some (x1, y1))
    else
      let s := (y2 + secpP - y1 % secpP) % secpP * invModP ((x2 + secpP - x1 % secpP) % secpP) % secpP
      let xr := (s * s + (secpP - x1 % secpP) + (secpP - x2 % secpP)) % secpP
      let yr := (s * ((x1 + secpP - xr) % secpP) + (secpP - y1 % secpP)) % secpP
      some (xr, yr)

/-- Fueled double-and-add scalar multiplication. -/
def scalarMultGo : Nat → Nat → ECPoint → ECPoint → ECPoint
  | 0, _, _, acc => acc
  | fuel + 1, k, p, acc =>
    if k = 0 then acc
    else scalarMultGo fuel (k / 2) (pointDouble p) (if k % 2 = 1 then pointAdd acc p else acc)

/-- Scalar multiplication (enough fuel for 256-bit scalars). -/
def scalarMult (k : Nat) (p : ECPoint) : ECPoint := scalarMultGo 300 k p none

/-- The secp256k1 generator point. -/
def secpG : ECPoint := some (secpGx, secpGy)

/-- Public point of a private scalar (the scalar is reduced modulo the
group order, as the Go secp256k1 library does when loading key bytes). -/
def pubkeyOf (k : Nat) : ECPoint := scalarMult (k % secpN) secpG

/-- Compressed SEC1 serialization: a parity byte then the 32-byte
big-endian x coordinate (33 bytes; the unused infinity case is serialized
as a zero x so that the length is always 33). -/
def serializeCompressed : ECPoint → List Nat
  | none => 2 :: toBytesBE 32 0
  | some (x, y) => (if y % 2 = 0 then 2 else 3) :: toBytesBE 32 x

/-- Membership test for the curve equation. -/
def onCurve : ECPoint → Bool
  | none => true
  | some (x, y) => (y * y) % secpP = (x * x * x + 7) % secpP

/-! ## BIP39 mnemonic codec

Modelled from the spec: bip39.NewMnemonic and its decode path live in the
go-bip39 dependency.  EncodeMnemonic appends the first
entropyBits/32 bits of SHA-256(entropy) to the entropy, splits the stream
into 11-bit groups and maps each group to a word-list index.  The 2048-word
English word list itself is data of the dependency, so the codec is
parameterized over the word list; the claims constrain the entries they
rely on.  A mnemonic sentence is the words joined by single spaces, and
the decoder splits on spaces; since word-list words are nonempty and
space-free the joined string and the word sequence determine each other,
and the codec is modelled on word sequences. -/

/-- Valid BIP39 entropy byte lengths: 128 to 256 bits in 32-bit steps. -/
def validEntropyLength (n : Nat) : Bool :=
  n == 16 || n == 20 || n == 24 || n == 28 || n == 32

/-- Word indices of a BIP39 mnemonic: entropy bits plus checksum bits,
split into 11-bit groups. -/
def entropyToIndices (entropy : List Nat) : Except GoErr (List Nat) :=
  if validEntropyLength entropy.length then
    let entBits := bytesToBits entropy
    let csBits := (bytesToBits (sha256 entropy)).take (entropy.length / 4)
    .ok ((chunksOf 10 (entBits ++ csBits)).map bitsToNat)
  else .error (.base "Entropy length must be [128, 256] and a multiple of 32")

/-- The mnemonic of an entropy value, as the list of its words. -/
def newMnemonicWords (wl : List String) (entropy : List Nat) : Except GoErr (List String) :=
  (entropyToIndices entropy).map (fun idxs => idxs.map (fun i => wl.getD i ""))

/-- bip39.NewMnemonic: the mnemonic sentence of an entropy value. -/
def newMnemonic (wl : List String) (entropy : List Nat) : Except GoErr String :=
  (newMnemonicWords wl entropy).map (fun ws => String.intercalate " " ws)

/-- Valid BIP39 word counts. -/
def validWordCount (n : Nat) : Bool :=
  n == 12 || n == 15 || n == 18 || n == 21 || n == 24

/-- bip39.EntropyFromMnemonic: recovers the entropy of a mnemonic (given
as its word sequence) and validates the embedded checksum. -/
def entropyFromMnemonic (wl : List String) (words : List String) : Except GoErr (List Nat) :=
  if validWordCount words.length then
    let idxs := words.map (fun w => wl.indexOf w)
    if idxs.any (fun i => wl.length ≤ i) then
      .error (.base "word not found in reverse map")
    else
      let bits := (idxs.map (natToBits 11)).flatten
      let entBytes := words.length * 11 * 32 / 33 / 8
      let entropy := bitsToBytes (bits.take (entBytes * 8))
      if (bits.drop (entBytes * 8) ==
          (bytesToBits (sha256 entropy)).take (bits.length - entBytes * 8)) then
        .ok entropy
      else .error (.base "Checksum incorrect")
  else .error (.base "Invalid mnemonic")

/-! ## BIP32 key derivation (cosmos-sdk crypto/hd)

Modelled from the spec: hd.ComputeMastersFromSeed is HMAC-SHA512 with the
fixed domain-separation key over the seed, split into master secret and
chain code; child derivation HMACs the parent chain code over either the
hardened data (a zero byte, the parent secret, the index with the top bit
set) or the serialized parent public key and index, and adds the left half
to the parent secret modulo the curve order.  The path is modelled as the
parsed segment list; the fixed path string in src/main.go line 54 parses
without error, so the error branch of hd.DerivePrivateKeyForPath is not
reachable and the model always succeeds. -/

/-- hd.ComputeMastersFromSeed: master secret and chain code of a seed. -/
def computeMastersFromSeed (seed : List Nat) : List Nat × List Nat :=
  let i := hmacSha512 (strBytes "Bitcoin seed") seed
  (i.take 32, i.drop 32)

/-- One BIP32 child-key derivation step. -/
def derivePrivateKeyStep (priv chain : List Nat) (index : Nat) (hardened : Bool) :
    List Nat × List Nat :=
  let data :=
    if hardened then [0] ++ priv ++ toBytesBE 4 (index + 0x80000000)
    else serializeCompressed (pubkeyOf (fromBytesBE priv)) ++ toBytesBE 4 index
  let i2 := hmacSha512 chain data
  (toBytesBE 32 ((fromBytesBE (i2.take 32) + fromBytesBE priv) % secpN), i2.drop 32)

/-- The fixed derivation path of src/main.go line 54: purpose 44 hardened,
coin type 118 hardened, account 0 hardened, change 0, address index 0. -/
def seiDerivationPath : List (Nat × Bool) :=
  [(44, true), (118, true), (0, true), (0, false), (0, false)]

/-- hd.DerivePrivateKeyForPath: folds the child derivation over the path
segments, left to right. -/
def derivePrivateKeyForPath (master chain : List Nat) (path : List (Nat × Bool)) :
    Except GoErr (List Nat) :=
  .ok (path.foldl (fun kc seg => derivePrivateKeyStep kc.1 kc.2 seg.1 seg.2) (master, chain)).1

/-! ## Bech32 address encoding

Modelled from the spec: sdk.AccAddress renders through the cosmos bech32
package (BIP-173): the 20-byte hash160 of the compressed public key is
regrouped into 5-bit values and encoded with the bech32 charset, prefixed
by the human-readable part and the separator 1, with a 6-character
checksum. -/

/-- The 32-character bech32 charset. -/
def bech32Charset : List Char := "qpzry9x8gf2tvdw0s3jn54khce6mua7l".data

/-- Bech32 checksum generator constants. -/
def bech32Gen : List Nat := [0x3b6a57b2, 0x26508e6d, 0x1ea119fa, 0x3d4233dd, 0x2a1462b3]

/-- Bech32 polymod checksum accumulator. -/
def bech32Polymod (values : List Nat) : Nat :=
  values.foldl (fun chk v =>
    let b := chk >>> 25
    let chk2 := ((chk &&& 0x1ffffff) <<< 5) ^^^ v
    (List.range 5).foldl
      (fun c i => if (b >>> i) &&& 1 == 1 then c ^^^ bech32Gen.getD i 0 else c) chk2) 1

/-- Expansion of the human-readable part for checksum computation. -/
def hrpExpand (hrp : String) : List Nat :=
  (strBytes hrp).map (fun c => c >>> 5) ++ [0] ++ (strBytes hrp).map (fun c => c &&& 31)

/-- The 6 checksum values of a bech32 string. -/
def bech32CreateChecksum (hrp : String) (data : List Nat) : List Nat :=
  let pm := bech32Polymod (hrpExpand hrp ++ data ++ [0, 0, 0, 0, 0, 0]) ^^^ 1
  (List.range 6).map (fun i => (pm >>> (5 * (5 - i))) &&& 31)

/-- Bech32 encoding: hrp, the separator 1, then data and checksum mapped
through the charset. -/
def bech32Encode (hrp : String) (data : List Nat) : String :=
  hrp ++ "1" ++
    String.mk ((data ++ bech32CreateChecksum hrp data).map (fun v => bech32Charset.getD v 'q'))

/-- Fueled emitter for the 8-to-5 bit regrouping: pops 5-bit groups off
the top of the accumulator while at least 5 bits remain. -/
def emit5rGo (acc : Nat) : Nat → Nat → List Nat
  | 0, _ => []
  | fuel + 1, bits =>
    if 5 ≤ bits then ((acc >>> (bits - 5)) &&& 31) :: emit5rGo acc fuel (bits - 5)
    else []

/-- Worker for the 8-to-5 regrouping: acc holds bits pending bits. -/
def cbGo : Nat → Nat → List Nat → List Nat
  | acc, bits, [] => if bits % 5 == 0 then [] else [(acc <<< (5 - bits % 5)) &&& 31]
  | acc, bits, b :: rest =>
    let acc2 := (acc <<< 8) ||| (b &&& 255)
    emit5rGo acc2 (bits + 8) (bits + 8) ++ cbGo acc2 ((bits + 8) % 5) rest

/-- bech32.ConvertBits with from 8, to 5 and padding: regroups a byte
string into 5-bit values, padding the final group with zero bits. -/
def convertBits8to5 (data : List Nat) : List Nat := cbGo 0 0 data

/-! ## The Account pipeline of src/main.go -/

/-- The Account value of src/main.go lines 16 to 21. -/
structure Account where
  Mnemonic : String
  Address : String
  PubKey : String
  PrivateKey : String
deriving DecidableEq

/-- The bech32 account prefix set by the init function of src/main.go
line 32 (sealed sdk configuration). -/
def seiBech32Hrp : String := "sei"

/-- The mnemonic-to-account part of generateAccount (src/main.go lines 52
to 84): seed from the mnemonic with an empty passphrase, master key and
chain code from the seed, child key at the fixed path, secp256k1 keypair,
hash160 fingerprint and bech32 address, with the key material hex
encoded. -/
def deriveAccountFromMnemonic (mnemonic : String) : Except GoErr Account :=
  let seed := bip39Seed mnemonic ""
  let mc := computeMastersFromSeed seed
  match derivePrivateKeyForPath mc.1 mc.2 seiDerivationPath with
  | .error err => .error err
  | .ok derivedKey =>
    let pub := serializeCompressed (pubkeyOf (fromBytesBE derivedKey))
    let addrBytes := hash160 pub
    .ok { Mnemonic := mnemonic
          Address := bech32Encode seiBech32Hrp (convertBits8to5 addrBytes)
          PubKey := hexEncode pub
          PrivateKey := hexEncode derivedKey }

/-- Shallow embedding of generateAccount (src/main.go lines 39 to 84).
The entropy stage performs the only effect (reading the secure random
source), so its outcome is injected as a parameter; every other stage is
pure.  Each failing stage returns the stage error wrapped by fmt.Errorf
with a %w verb and a stage-identifying message. -/
def generateAccountGo (wl : List String) (entropyResult : Except GoErr (List Nat)) :
    Except GoErr Account :=
  match entropyResult with
  | .error err => .error (.wrap "failed to generate entropy" err)
  | .ok entropy =>
    match newMnemonic wl entropy with
    | .error err => .error (.wrap "failed to generate mnemonic" err)
    | .ok mnemonic =>
      match deriveAccountFromMnemonic mnemonic with
      | .error err => .error (.wrap "failed to derive private key" err)
      | .ok acc => .ok acc

/-! ## The AccountStore of src/storage.go

The store is modelled as the state of the accounts table plus the
connection flag.  Rows carry the id assigned by the INTEGER PRIMARY KEY
AUTOINCREMENT column and are kept in insertion order; since ids are
assigned in increasing order, insertion order coincides with rowid order,
which is the order in which the SELECT of GetAccounts (a full table scan
with no ORDER BY over a rowid table) returns rows.  The dbOpen flag
models whether s.db is nil; Close sets it, and rows are retained because
the file outlives the connection, but no operation reaches them once the
flag is cleared. -/

/-- One row of the accounts table. -/
structure StoredRow where
  id : Nat
  account : Account
deriving DecidableEq

/-- The state of an AccountStore. -/
structure AccountStore where
  rows : List StoredRow
  nextId : Nat
  dbOpen : Bool
deriving DecidableEq

/-- The error message returned by every operation on a closed store
(src/storage.go lines 124, 160, 191). -/
def dbClosedMsg : String := "database connection not established"

/-- A freshly initialized store: empty table, AUTOINCREMENT starting at 1,
connection open. -/
def emptyOpenStore : AccountStore := ⟨[], 1, true⟩

/-- SaveAccount (src/storage.go lines 119 to 152): fails on a closed
connection; if a row with the same address exists the call is a no-op
returning success; otherwise the account is inserted as a new row. -/
def saveAccount (s : AccountStore) (account : Account) : Except String Unit × AccountStore :=
  if s.dbOpen = false then (.error dbClosedMsg, s)
  else if s.rows.any (fun r => r.account.Address == account.Address) then (.ok (), s)
  else (.ok (), ⟨s.rows ++ [⟨s.nextId, account⟩], s.nextId + 1, true⟩)

/-- GetAccounts (src/storage.go lines 155 to 183): fails on a closed
connection, otherwise returns all rows in table order. -/
def getAccounts (s : AccountStore) : Except String (List Account) :=
  if s.dbOpen = false then .error dbClosedMsg
  else .ok (s.rows.map (fun r => r.account))

/-- CountAccounts (src/storage.go lines 186 to 201): fails on a closed
connection, otherwise returns SELECT COUNT of the table. -/
def countAccounts (s : AccountStore) : Except String Nat :=
  if s.dbOpen = false then .error dbClosedMsg
  else .ok s.rows.length

/-- Close (src/storage.go lines 223 to 233): closes the connection if it
is open and returns nil on an already-closed store. -/
def closeStore (s : AccountStore) : Option String × AccountStore :=
  if s.dbOpen then (none, ⟨s.rows, s.nextId, false⟩) else (none, s)

/-- Folds SaveAccount over a list of accounts, keeping the store state. -/
def runSaves (s : AccountStore) (as : List Account) : AccountStore :=
  as.foldl (fun t a => (saveAccount t a).2) s

/-- Specification-side description of the repository contents after a
sequence of saves: the saved accounts in their original creation order,
keeping only the first occurrence of each address.  This definition
follows the wording of the spec (List returns the stored accounts in
creation order, deduplicated by address) and is compared against the
AccountStore model in the List theorem. -/
def dedupByAddressGo (seen : List String) : List Account → List Account
  | [] => []
  | a :: rest =>
    if seen.contains a.Address then dedupByAddressGo seen rest
    else a :: dedupByAddressGo (a.Address :: seen) rest

/-- First-occurrence deduplication by address, starting from nothing
seen. -/
def dedupByAddress (as : List Account) : List Account := dedupByAddressGo [] as

/-! ## The main orchestration of src/main.go -/

/-- The target account count (src/main.go line 25). -/
def DefaultAccountCount : Nat := 10

/-- The string fmt prints for a (possibly wrapped) error value. -/
def goErrMsg : GoErr → String
  | .base m => m
  | .wrap m e => m ++ ": " ++ goErrMsg e

/-- The generation loop of src/main.go lines 124 to 145, structurally
recursing on the number of remaining iterations: for each i from count+1
up to DefaultAccountCount it asks the factory for an account (the i-th
call of the injected generator, standing for generateAccount with the
i-th draw of the random source), aborts on a generation or save error as
main does via os.Exit, and otherwise saves the account and continues.
Returns the generated accounts in order together with the final store. -/
def genLoopGo (gen : Nat → Except GoErr Account) :
    Nat → Nat → AccountStore → Except String (List Account × AccountStore)
  | 0, _, s => .ok ([], s)
  | r + 1, i, s =>
    match gen i with
    | .error e => .error (goErrMsg e)
    | .ok a =>
      match saveAccount s a with
      | (.error m, _) => .error m
      | (.ok _, s2) => (genLoopGo gen r (i + 1) s2).map (fun t => (a :: t.1, t.2))

/-- The account-management part of main (src/main.go lines 106 to 145):
counts the stored accounts; if the target is already met it retrieves and
displays the stored accounts and generates nothing, otherwise it runs the
generation loop for the missing accounts, displaying each new account.
Returns the generated accounts, the displayed accounts and the final
store. -/
def runMain (gen : Nat → Except GoErr Account) (s : AccountStore) :
    Except String (List Account × List Account × AccountStore) :=
  match countAccounts s with
  | .error m => .error m
  | .ok count =>
    if DefaultAccountCount ≤ count then
      match getAccounts s with
      | .error m => .error m
      | .ok l => .ok ([], l, s)
    else
      (genLoopGo gen (DefaultAccountCount - count) (count + 1) s).map
        (fun t => (t.1, t.1, t.2))

/-! ## Auxiliary definitions used by the claim statements -/

/-- Outcome comparison used by the determinism claim: two pipeline runs
agree when both fail or both succeed with byte-identical mnemonic, private
key, public key and address. -/
def sameOutputs : Except GoErr Account → Except GoErr Account → Bool
  | .ok a1, .ok a2 =>
    a1.Mnemonic == a2.Mnemonic && a1.PrivateKey == a2.PrivateKey &&
      a1.PubKey == a2.PubKey && a1.Address == a2.Address
  | .error _, .error _ => true
  | _, _ => false

/-- The fixed test entropy: 32 zero bytes. -/
def zeroEntropy : List Nat := List.replicate 32 0

/-- The standard 24-word mnemonic sentence of the all-zero 256-bit
entropy: twenty-three times abandon, then art. -/
def zeroMnemonicSentence : String :=
  "abandon abandon abandon abandon abandon abandon abandon abandon " ++
  "abandon abandon abandon abandon abandon abandon abandon abandon " ++
  "abandon abandon abandon abandon abandon abandon abandon art"

/-- The length invariants of a generated account: the private key is 32
bytes (64 hex characters), the compressed public key is 33 bytes (66 hex
characters), and the address is the account prefix, the separator 1 and
data drawn from the bech32 charset. -/
def accountWellFormed (acc : Account) : Prop :=
  (∃ kb : List Nat, kb.length = 32 ∧ acc.PrivateKey = hexEncode kb) ∧
  (∃ pb : List Nat, pb.length = 33 ∧ acc.PubKey = hexEncode pb) ∧
  acc.PrivateKey.length = 64 ∧ acc.PubKey.length = 66 ∧
  (∃ ds : List Char, acc.Address = seiBech32Hrp ++ "1" ++ String.mk ds ∧
    ∀ c ∈ ds, c ∈ bech32Charset)

/-- The length invariants, lifted over the pipeline outcome. -/
def pipelineWellFormed : Except GoErr Account → Prop
  | .error _ => True
  | .ok acc => accountWellFormed acc

/-- Concrete word list for instantiating word-list-parameterized
theorems: entry 0 is abandon and entry 102 is art, as in the standard
English list; the remaining entries are placeholders, and the theorems
using this list only constrain the entries they name. -/
def wlVector : List String :=
  "abandon" :: List.replicate 101 "w" ++ "art" :: List.replicate 1945 "w"

/-- Word list of 2048 pairwise-distinct placeholder words, for
instantiating the round-trip theorem, which holds for any duplicate-free
word list of the standard size. -/
def wlUnary : List String := (List.range 2048).map (fun n => String.mk (List.replicate n 'a'))

/-- Arbitrary account value used by the storage witnesses. -/
def sampleAccount : Account :=
  { Mnemonic := "word list sentence"
    Address := "sei1sample"
    PubKey := "02ab"
    PrivateKey := "ab" }

/-! ## Claim theorems -/

/-- Known-answer check: SHA-256 of the empty string matches the FIPS 180-4
test vector, validating the computed constants and the compression loop. -/
theorem sha256_empty_vector :
    sha256 [] =
      [0xe3, 0xb0, 0xc4, 0x42, 0x98, 0xfc, 0x1c, 0x14, 0x9a, 0xfb, 0xf4, 0xc8,
       0x99, 0x6f, 0xb9, 0x24, 0x27, 0xae, 0x41, 0xe4, 0x64, 0x9b, 0x93, 0x4c,
       0xa4, 0x95, 0x99, 0x1b, 0x78, 0x52, 0xb8, 0x55] := by
  decide

/-- Known-answer check: SHA-256 of 32 zero bytes (the checksum input for
the all-zero-entropy BIP39 vector) starts with byte 0x66. -/
theorem sha256_zero32_vector :
    (sha256 (List.replicate 32 0)).take 4 = [0x66, 0x68, 0x7a, 0xad] := by
  decide

/-- Known-answer check: SHA-512 of the empty string matches the FIPS 180-4
test vector, validating the computed constants and the compression loop. -/
theorem sha512_empty_vector :
    sha512 [] =
      [0xcf, 0x83, 0xe1, 0x35, 0x7e, 0xef, 0xb8, 0xbd, 0xf1, 0x54, 0x28, 0x50,
       0xd6, 0x6d, 0x80, 0x07, 0xd6, 0x20, 0xe4, 0x05, 0x0b, 0x57, 0x15, 0xdc,
       0x83, 0xf4, 0xa9, 0x21, 0xd3, 0x6c, 0xe9, 0xce, 0x47, 0xd0, 0xd1, 0x3c,
       0x5d, 0x85, 0xf2, 0xb0, 0xff, 0x83, 0x18, 0xd2, 0x87, 0x7e, 0xec, 0x2f,
       0x63, 0xb9, 0x31, 0xbd, 0x47, 0x41, 0x7a, 0x81, 0xa5, 0x38, 0x32, 0x7a,
       0xf9, 0x27, 0xda, 0x3e] := by
  decide

/-- Known-answer check: RIPEMD-160 of the empty string matches the
published test vector, validating the tables above. -/
theorem ripemd160_empty_vector :
    ripemd160 [] =
      [0x9c, 0x11, 0x85, 0xa5, 0xc5, 0xe9, 0xfc, 0x54, 0x61, 0x28,
       0x08, 0x97, 0x7e, 0xe8, 0xf5, 0x48, 0xb2, 0x25, 0x8d, 0x31] := by
  decide

/-- Known-answer check from BIP-173: the bech32 encoding of no data under
the hrp a is a12uel5l. -/
theorem bech32_empty_vector : bech32Encode "a" [] = "a12uel5l" := by
  decide

/-- Known-answer check: the 8-to-5 regrouping of a single 0xff byte. -/
theorem convertBits_ff_vector : convertBits8to5 [0xff] = [31, 28] := by
  decide

/-- Sanity check: the generator satisfies the curve equation, and so do
its double and triple as computed by the affine arithmetic above. -/
theorem secp_generator_checks :
    (onCurve secpG && onCurve (pointDouble secpG) &&
      onCurve (pointAdd (pointDouble secpG) secpG) &&
      onCurve (scalarMult 7 secpG)) = true := by
  decide

/-- C1: the derivation pipeline is deterministic: running the pipeline
twice on the same fixed entropy value produces byte-identical mnemonic,
private key, public key and address (and identical outcomes overall). -/
theorem c1_pipeline_deterministic (wl : List String) (e : List Nat) :
    sameOutputs (generateAccountGo wl (.ok e)) (generateAccountGo wl (.ok e)) = true := by
  cases h : generateAccountGo wl (.ok e) <;> simp [sameOutputs]

/-- C9: on every store state, CountAccounts and GetAccounts agree: the
count is exactly the length of the account sequence GetAccounts returns
(and the two fail together on a closed store). -/
theorem c9_count_matches_list_length (s : AccountStore) :
    countAccounts s = (getAccounts s).map List.length := by
  by_cases h : s.dbOpen = false <;> simp [countAccounts, getAccounts, h, Except.map]

/-- C10: after Close, SaveAccount, GetAccounts and CountAccounts all fail
with the database-connection error and leave the store unchanged, and a
second Close is a no-op returning no error. -/
theorem c10_closed_store_rejects (s : AccountStore) (a : Account) :
    saveAccount (closeStore s).2 a = (.error dbClosedMsg, (closeStore s).2) ∧
    getAccounts (closeStore s).2 = .error dbClosedMsg ∧
    countAccounts (closeStore s).2 = .error dbClosedMsg ∧
    closeStore (closeStore s).2 = (none, (closeStore s).2) := by
  have h : ∀ t : AccountStore, t.dbOpen = false →
      saveAccount t a = (.error dbClosedMsg, t) ∧ getAccounts t = .error dbClosedMsg ∧
      countAccounts t = .error dbClosedMsg ∧ closeStore t = (none, t) := by
    intro t ht
    refine ⟨?_, ?_, ?_, ?_⟩ <;> simp [saveAccount, getAccounts, countAccounts, closeStore, ht]
  exact h _ (by by_cases hs : s.dbOpen <;> simp [closeStore, hs])

/-- C3 counterexample: the entropy-stage error is not propagated
unwrapped; generateAccount returns it wrapped inside a new error carrying
the stage message, and the wrapped error differs from the stage error. -/
theorem c3_counterexample :
    generateAccountGo [] (.error (.base "entropy source failure")) =
      .error (.wrap "failed to generate entropy" (.base "entropy source failure")) ∧
    GoErr.wrap "failed to generate entropy" (.base "entropy source failure") ≠
      GoErr.base "entropy source failure" :=
  ⟨rfl, by decide⟩

/-- C3 amended: if any stage of generateAccount fails, the whole call
returns an error and no Account value; the failing stage's error is
propagated to the caller after exactly one wrapping step (fmt.Errorf with
a %w verb and a stage-identifying message), with no recovery or retry, so
every error outcome is such a wrap of the stage error. -/
theorem c3_error_propagation (wl : List String) (eres : Except GoErr (List Nat)) :
    (∀ err, eres = .error err →
      generateAccountGo wl eres = .error (.wrap "failed to generate entropy" err)) ∧
    (∀ e merr, eres = .ok e → newMnemonic wl e = .error merr →
      generateAccountGo wl eres = .error (.wrap "failed to generate mnemonic" merr)) ∧
    (∀ err2, generateAccountGo wl eres = .error err2 → ∃ m cause, err2 = .wrap m cause) := by
  refine ⟨?_, ?_, ?_⟩
  · rintro err rfl
    rfl
  · rintro e merr rfl hm
    simp [generateAccountGo, hm]
  · intro err2 h
    cases eres with
    | error err => exact ⟨_, _, by simpa [generateAccountGo] using h.symm.trans rfl⟩
    | ok e =>
      cases hm : newMnemonic wl e with
      | error merr =>
        simp [generateAccountGo, hm] at h
        exact ⟨_, _, h.symm⟩
      | ok mn =>
        cases hd : deriveAccountFromMnemonic mn with
        | error derr =>
          simp [generateAccountGo, hm, hd] at h
          exact ⟨_, _, h.symm⟩
        | ok acc => simp [generateAccountGo, hm, hd] at h

/-- C3 witness: the amended propagation theorem applied to a concrete
failing entropy stage. -/
theorem c3_error_propagation_witness :
    generateAccountGo [] (.error (.base "no entropy available")) =
      .error (.wrap "failed to generate entropy" (.base "no entropy available")) :=
  (c3_error_propagation [] (.error (.base "no entropy available"))).1
    (.base "no entropy available") rfl

/-- On an open store, SaveAccount always reports success and keeps the
connection open. -/
theorem saveAccount_ok (s : AccountStore) (a : Account) (h : s.dbOpen = true) :
    (saveAccount s a).1 = .ok () ∧ ((saveAccount s a).2).dbOpen = true := by
  by_cases hp : s.rows.any (fun r => r.account.Address == a.Address) = true <;>
    simp [saveAccount, h, hp]

/-- When the stored addresses are duplicate-free and some row matches an
address, exactly one row matches it. -/
theorem filter_addr_singleton (rows : List StoredRow) (x : String)
    (hnd : (rows.map (fun r => r.account.Address)).Nodup)
    (hx : rows.any (fun r => r.account.Address == x) = true) :
    (rows.filter (fun r => r.account.Address == x)).length = 1 := by
  induction rows with
  | nil => simp at hx
  | cons r rest ih =>
    simp only [List.map_cons, List.nodup_cons] at hnd
    by_cases hr : r.account.Address = x
    · have hnil : rest.filter (fun t => t.account.Address == x) = [] := by
        apply List.filter_eq_nil_iff.mpr
        intro t htmem hbeq
        exact hnd.1 (hr ▸ (List.mem_map.mpr ⟨t, htmem, (eq_of_beq hbeq).symm ▸ rfl⟩))
      simp [List.filter_cons, hr, hnil]
    · have hx2 : rest.any (fun t => t.account.Address == x) = true := by
        rcases List.any_eq_true.mp hx with ⟨t, htmem, htbeq⟩
        rcases List.mem_cons.mp htmem with hth | htt
        · exact absurd (hth ▸ eq_of_beq htbeq) hr
        · exact List.any_eq_true.mpr ⟨t, htt, htbeq⟩
      have hrb : (r.account.Address == x) = false := by
        simpa using hr
      simp only [List.filter_cons, hrb]
      exact ih hnd.2 hx2

/-- C4: saving an account whose address is already stored is a successful
no-op: the first save stores the row (or finds it already present), the
second save returns success and leaves the store unchanged, exactly one
row holds that address afterwards, and the stored addresses stay
duplicate-free. -/
theorem c4_save_duplicate_noop (s : AccountStore) (a : Account)
    (hopen : s.dbOpen = true)
    (hnd : (s.rows.map (fun r => r.account.Address)).Nodup) :
    ∃ s1, saveAccount s a = (.ok (), s1) ∧
      saveAccount s1 a = (.ok (), s1) ∧
      (s1.rows.filter (fun r => r.account.Address == a.Address)).length = 1 ∧
      (s1.rows.map (fun r => r.account.Address)).Nodup := by
  by_cases hp : s.rows.any (fun r => r.account.Address == a.Address) = true
  · refine ⟨s, by simp [saveAccount, hopen, hp], by simp [saveAccount, hopen, hp],
      filter_addr_singleton _ _ hnd hp, hnd⟩
  · have hpf : s.rows.any (fun r => r.account.Address == a.Address) = false := by
      cases h2 : s.rows.any (fun r => r.account.Address == a.Address) with
      | false => rfl
      | true => exact absurd h2 hp
    have hnil : s.rows.filter (fun r => r.account.Address == a.Address) = [] := by
      apply List.filter_eq_nil_iff.mpr
      intro t htmem hbeq
      exact (List.any_eq_false.mp hpf t htmem) hbeq
    have hmem : a.Address ∉ s.rows.map (fun r => r.account.Address) := by
      intro hmem
      rcases List.mem_map.mp hmem with ⟨t, htmem, hteq⟩
      exact (List.any_eq_false.mp hpf t htmem) (beq_iff_eq.mpr hteq)
    refine ⟨⟨s.rows ++ [⟨s.nextId, a⟩], s.nextId + 1, true⟩, ?_, ?_, ?_, ?_⟩
    · simp [saveAccount, hopen, hpf]
    · simp [saveAccount, List.any_append]
    · simp [List.filter_append, hnil, List.filter_cons]
    · simp only [List.map_append, List.map_cons, List.map_nil]
      exact List.Nodup.append hnd (List.nodup_singleton _)
        (by intro x hx hx2; simp only [List.mem_singleton] at hx2; exact hmem (hx2 ▸ hx))

/-- C4 witness: the duplicate-save theorem applied to the fresh store and
a concrete account. -/
theorem c4_save_duplicate_noop_witness :
    emptyOpenStore.dbOpen = true ∧
    ∃ s1, saveAccount emptyOpenStore sampleAccount = (.ok (), s1) ∧
      saveAccount s1 sampleAccount = (.ok (), s1) ∧
      (s1.rows.filter (fun r => r.account.Address == sampleAccount.Address)).length = 1 ∧
      (s1.rows.map (fun r => r.account.Address)).Nodup :=
  ⟨rfl, c4_save_duplicate_noop emptyOpenStore sampleAccount rfl (by simp [emptyOpenStore])⟩

/-- Folding saves over a cons. -/
theorem runSaves_cons (s : AccountStore) (a : Account) (as : List Account) :
    runSaves s (a :: as) = runSaves (saveAccount s a).2 as := rfl

/-- Folding saves keeps the connection open. -/
theorem runSaves_open (as : List Account) : ∀ s : AccountStore, s.dbOpen = true →
    (runSaves s as).dbOpen = true := by
  induction as with
  | nil => intro s h; exact h
  | cons a rest ih =>
    intro s h
    rw [runSaves_cons]
    exact ih _ (saveAccount_ok s a h).2

/-- Membership form of the duplicate check of SaveAccount. -/
theorem any_addr_iff (rows : List StoredRow) (x : String) :
    rows.any (fun r => r.account.Address == x) = true ↔
      x ∈ rows.map (fun r => r.account.Address) := by
  constructor
  · intro h
    rcases List.any_eq_true.mp h with ⟨r, hr, hbeq⟩
    exact List.mem_map.mpr ⟨r, hr, eq_of_beq hbeq⟩
  · intro h
    rcases List.mem_map.mp h with ⟨r, hr, heq⟩
    exact List.any_eq_true.mpr ⟨r, hr, beq_iff_eq.mpr heq⟩

/-- The table contents after a sequence of saves: the prior rows followed
by the first occurrence of each not-yet-stored address, in save order.
The seen list may be any list with the same members as the stored
addresses. -/
theorem runSaves_rows (as : List Account) : ∀ (s : AccountStore) (seen : List String),
    s.dbOpen = true →
    (∀ x, x ∈ seen ↔ x ∈ s.rows.map (fun r => r.account.Address)) →
    (runSaves s as).rows.map (fun r => r.account) =
      s.rows.map (fun r => r.account) ++ dedupByAddressGo seen as := by
  induction as with
  | nil => intro s seen _ _; simp [runSaves, dedupByAddressGo]
  | cons a rest ih =>
    intro s seen hopen hseen
    rw [runSaves_cons, dedupByAddressGo]
    cases hp : s.rows.any (fun r => r.account.Address == a.Address) with
    | true =>
      have hc : seen.contains a.Address = true := by
        have hm : a.Address ∈ seen := (hseen _).mpr ((any_addr_iff _ _).mp hp)
        simpa using hm
      have hsave : (saveAccount s a).2 = s := by simp [saveAccount, hopen, hp]
      rw [hsave]
      simp only [hc, if_true]
      exact ih s seen hopen hseen
    | false =>
      have hc : seen.contains a.Address = false := by
        have hm : a.Address ∉ seen := fun hmem =>
          absurd ((any_addr_iff _ _).mpr ((hseen _).mp hmem)) (by simp [hp])
        simpa using hm
      have hsave : (saveAccount s a).2 =
          ⟨s.rows ++ [⟨s.nextId, a⟩], s.nextId + 1, true⟩ := by
        simp [saveAccount, hopen, hp]
      rw [hsave]
      simp only [hc, Bool.false_eq_true, if_false]
      have hrec := ih ⟨s.rows ++ [⟨s.nextId, a⟩], s.nextId + 1, true⟩ (a.Address :: seen) rfl
        (by
          intro x
          simp only [List.mem_cons, List.map_append, List.mem_append, List.map_cons,
            List.map_nil, List.mem_singleton, hseen x]
          tauto)
      rw [hrec]
      simp

/-- First-occurrence deduplication produces duplicate-free addresses, none
of them among the already-seen ones. -/
theorem dedupByAddressGo_nodup (as : List Account) : ∀ seen : List String,
    ((dedupByAddressGo seen as).map Account.Address).Nodup ∧
    ∀ x ∈ (dedupByAddressGo seen as).map Account.Address, x ∉ seen := by
  induction as with
  | nil => intro seen; simp [dedupByAddressGo]
  | cons a rest ih =>
    intro seen
    rw [dedupByAddressGo]
    cases hc : seen.contains a.Address with
    | true =>
      simp only [hc, if_true]
      refine ⟨(ih seen).1, (ih seen).2⟩
    | false =>
      simp only [hc, Bool.false_eq_true, if_false, List.map_cons, List.nodup_cons]
      have hmem : a.Address ∉ seen := by simpa using hc
      refine ⟨⟨?_, (ih _).1⟩, ?_⟩
      · intro hin
        exact ((ih (a.Address :: seen)).2 _ hin) (List.mem_cons_self _ _)
      · intro x hx
        rcases List.mem_cons.mp hx with rfl | hxs
        · exact hmem
        · exact fun hxseen => ((ih (a.Address :: seen)).2 _ hxs) (List.mem_cons_of_mem _ hxseen)

/-- C5: GetAccounts returns exactly the stored accounts, each exactly once
(addresses are duplicate-free), as an ordered sequence in the original
creation order: after any sequence of saves into a fresh store, the listed
sequence is the saved sequence with later duplicate addresses dropped. -/
theorem c5_list_in_creation_order (as : List Account) :
    getAccounts (runSaves emptyOpenStore as) = .ok (dedupByAddress as) ∧
    ((dedupByAddress as).map Account.Address).Nodup := by
  constructor
  · have hopen := runSaves_open as emptyOpenStore rfl
    have hrows := runSaves_rows as emptyOpenStore [] rfl (by simp [emptyOpenStore])
    rw [getAccounts]
    simp only [hopen, Bool.true_eq_false, if_false]
    rw [hrows]
    simp [emptyOpenStore, dedupByAddress]
  · exact (dedupByAddressGo_nodup as []).1

/-- All-ok generation runs of the loop: with an always-succeeding factory
and an open store, the loop of main performs exactly r generation calls,
saving each account in turn. -/
theorem genLoopGo_ok (gen : Nat → Except GoErr Account)
    (hgen : ∀ i, ∃ a, gen i = .ok a) : ∀ (r i : Nat) (s : AccountStore),
    s.dbOpen = true →
    ∃ gens s2, genLoopGo gen r i s = .ok (gens, s2) ∧ gens.length = r ∧
      s2 = runSaves s gens := by
  intro r
  induction r with
  | zero => intro i s _; exact ⟨[], s, rfl, rfl, rfl⟩
  | succ n ih =>
    intro i s hopen
    obtain ⟨a, ha⟩ := hgen i
    obtain ⟨hok, hopen2⟩ := saveAccount_ok s a hopen
    rcases hsa : saveAccount s a with ⟨res, s3⟩
    rw [hsa] at hok hopen2
    simp only at hok hopen2
    subst hok
    obtain ⟨gens, s2, hg, hlen, hs2⟩ := ih (i + 1) s3 hopen2
    refine ⟨a :: gens, s2, ?_, by simp [hlen], ?_⟩
    · simp [genLoopGo, ha, hsa, hg, Except.map]
    · rw [runSaves_cons, hsa]
      exact hs2

/-- C6: the orchestration is idempotent for the target count: when the
store already holds at least DefaultAccountCount accounts, main generates
nothing and displays the stored accounts; otherwise it generates exactly
the missing number of accounts, saving each one. -/
theorem c6_generation_idempotent (gen : Nat → Except GoErr Account)
    (s : AccountStore) (n : Nat)
    (hc : countAccounts s = .ok n) (hgen : ∀ i, ∃ a, gen i = .ok a) :
    (DefaultAccountCount ≤ n →
      runMain gen s = .ok ([], s.rows.map (fun r => r.account), s)) ∧
    (n < DefaultAccountCount → ∃ gens s2, runMain gen s = .ok (gens, gens, s2) ∧
      gens.length = DefaultAccountCount - n ∧ s2 = runSaves s gens) := by
  have hopen : s.dbOpen = true := by
    cases hdb : s.dbOpen with
    | false => rw [countAccounts] at hc; simp [hdb] at hc
    | true => rfl
  constructor
  · intro hge
    rw [runMain, hc]
    simp only [hge, if_true]
    rw [getAccounts]
    simp [hopen]
  · intro hlt
    obtain ⟨gens, s2, hg, hlen, hs2⟩ :=
      genLoopGo_ok gen hgen (DefaultAccountCount - n) (n + 1) s hopen
    refine ⟨gens, s2, ?_, hlen, hs2⟩
    rw [runMain, hc]
    simp only [Nat.not_le.mpr hlt, if_false]
    rw [hg]
    rfl

/-- C6 witness: the idempotence theorem applied to the empty store and a
constant factory, with both branches instantiated. -/
theorem c6_generation_idempotent_witness :
    countAccounts emptyOpenStore = .ok 0 ∧
    ∃ gens s2, runMain (fun _ => .ok sampleAccount) emptyOpenStore = .ok (gens, gens, s2) ∧
      gens.length = DefaultAccountCount - 0 ∧ s2 = runSaves emptyOpenStore gens :=
  ⟨rfl, (c6_generation_idempotent (fun _ => .ok sampleAccount) emptyOpenStore 0 rfl
    (fun _ => ⟨sampleAccount, rfl⟩)).2 (by decide)⟩

/-- Fixed-width big-endian byte rendering has exactly the requested
width. -/
theorem toBytesBE_length : ∀ (w n : Nat), (toBytesBE w n).length = w := by
  intro w
  induction w with
  | zero => intro n; rfl
  | succ k ih => intro n; simp [toBytesBE, ih]

/-- SHA-512 digests are 64 bytes. -/
theorem sha512_length (msg : List Nat) : (sha512 msg).length = 64 := by
  simp [sha512, toBytesBE_length]

/-- HMAC-SHA512 tags are 64 bytes. -/
theorem hmacSha512_length (key msg : List Nat) : (hmacSha512 key msg).length = 64 := by
  simp [hmacSha512, sha512_length]

/-- PBKDF2 accumulation preserves the 64-byte block width. -/
theorem pbkdf2Go_length : ∀ (k : Nat) (pw uk acc : List Nat), acc.length = 64 →
    (pbkdf2Go k pw uk acc).length = 64 := by
  intro k
  induction k with
  | zero => intro pw uk acc h; exact h
  | succ n ih =>
    intro pw uk acc h
    rw [pbkdf2Go]
    exact ih pw _ _ (by simp [xorBytes, h, hmacSha512_length])

/-- BIP39 seeds are 64 bytes. -/
theorem bip39Seed_length (mnemonic passphrase : String) :
    (bip39Seed mnemonic passphrase).length = 64 := by
  rw [bip39Seed]
  exact pbkdf2Go_length _ _ _ _ (hmacSha512_length _ _)

/-- Compressed public keys are 33 bytes. -/
theorem serializeCompressed_length : ∀ p : ECPoint, (serializeCompressed p).length = 33 := by
  intro p
  match p with
  | none => simp [serializeCompressed, toBytesBE_length]
  | some (x, y) =>
    by_cases h : y % 2 = 0 <;> simp [serializeCompressed, h, toBytesBE_length]

/-- Each BIP32 derivation step produces a 32-byte child key. -/
theorem derivePrivateKeyStep_length (priv chain : List Nat) (index : Nat) (hardened : Bool) :
    (derivePrivateKeyStep priv chain index hardened).1.length = 32 := by
  simp [derivePrivateKeyStep, toBytesBE_length]

/-- The key derived along the fixed path is 32 bytes. -/
theorem derivePath_key_length (master chain : List Nat) (k : List Nat)
    (h : derivePrivateKeyForPath master chain seiDerivationPath = .ok k) :
    k.length = 32 := by
  rw [derivePrivateKeyForPath] at h
  simp only [seiDerivationPath, List.foldl_cons, List.foldl_nil, Except.ok.injEq] at h
  rw [← h]
  exact derivePrivateKeyStep_length _ _ _ _

/-- Hex encoding doubles the length. -/
theorem hexEncode_length : ∀ bs : List Nat, (hexEncode bs).length = 2 * bs.length := by
  intro bs
  induction bs with
  | nil => rfl
  | cons b rest ih =>
    simp only [hexEncode, List.map_cons, List.flatten_cons, String.length_mk] at ih ⊢
    simp [List.length_append] at ih ⊢
    omega

/-- Every value popped by the 5-bit emitter is below 32. -/
theorem emit5rGo_lt : ∀ (fuel acc bits v : Nat), v ∈ emit5rGo acc fuel bits → v < 32 := by
  intro fuel
  induction fuel with
  | zero => intro acc bits v h; simp [emit5rGo] at h
  | succ n ih =>
    intro acc bits v h
    rw [emit5rGo] at h
    by_cases hb : 5 ≤ bits
    · rw [if_pos hb] at h
      rcases List.mem_cons.mp h with rfl | ht
      · exact Nat.lt_succ_of_le Nat.and_le_right
      · exact ih acc (bits - 5) v ht
    · rw [if_neg hb] at h
      simp at h

/-- Every value produced by the 8-to-5 regrouping worker is below 32. -/
theorem cbGo_lt : ∀ (data : List Nat) (acc bits v : Nat), v ∈ cbGo acc bits data → v < 32 := by
  intro data
  induction data with
  | nil =>
    intro acc bits v h
    rw [cbGo] at h
    by_cases hb : (bits % 5 == 0) = true
    · rw [if_pos hb] at h; simp at h
    · rw [if_neg hb] at h
      rcases List.mem_singleton.mp h with rfl
      exact Nat.lt_succ_of_le Nat.and_le_right
  | cons b rest ih =>
    intro acc bits v h
    rw [cbGo] at h
    rcases List.mem_append.mp h with he | ht
    · exact emit5rGo_lt _ _ _ _ he
    · exact ih _ _ _ ht

/-- Every value of the 8-to-5 regrouping is below 32. -/
theorem convertBits8to5_lt (data : List Nat) (v : Nat) (h : v ∈ convertBits8to5 data) :
    v < 32 := cbGo_lt data 0 0 v h

/-- Every bech32 checksum value is below 32. -/
theorem bech32CreateChecksum_lt (hrp : String) (data : List Nat) (v : Nat)
    (h : v ∈ bech32CreateChecksum hrp data) : v < 32 := by
  rw [bech32CreateChecksum] at h
  rcases List.mem_map.mp h with ⟨i, _, heq⟩
  rw [← heq]
  exact Nat.lt_succ_of_le Nat.and_le_right

/-- Charset lookup of a 5-bit value lands in the charset. -/
theorem charset_lookup_mem (v : Nat) (h : v < 32) :
    bech32Charset.getD v 'q' ∈ bech32Charset := by
  have hl : v < bech32Charset.length := by
    have : bech32Charset.length = 32 := by decide
    omega
  rw [List.getD_eq_getElem _ _ hl]
  exact List.getElem_mem hl

/-- An account record built from a 32-byte derived key, its compressed
public point, and the bech32 rendering of the hash160 fingerprint
satisfies all the length invariants. -/
theorem account_build_wellFormed (mn : String) (derivedKey : List Nat)
    (hk : derivedKey.length = 32) :
    accountWellFormed
      { Mnemonic := mn
        Address := bech32Encode seiBech32Hrp (convertBits8to5
          (hash160 (serializeCompressed (pubkeyOf (fromBytesBE derivedKey)))))
        PubKey := hexEncode (serializeCompressed (pubkeyOf (fromBytesBE derivedKey)))
        PrivateKey := hexEncode derivedKey } := by
  refine ⟨⟨derivedKey, hk, rfl⟩,
    ⟨serializeCompressed (pubkeyOf (fromBytesBE derivedKey)),
      serializeCompressed_length _, rfl⟩, ?_, ?_, ?_⟩
  · show (hexEncode derivedKey).length = 64
    rw [hexEncode_length, hk]
  · show (hexEncode (serializeCompressed (pubkeyOf (fromBytesBE derivedKey)))).length = 66
    rw [hexEncode_length, serializeCompressed_length]
  · refine ⟨_, rfl, ?_⟩
    intro c hc
    rcases List.mem_map.mp hc with ⟨v, hv, rfl⟩
    rcases List.mem_append.mp hv with h1 | h2
    · exact charset_lookup_mem v (convertBits8to5_lt _ _ h1)
    · exact charset_lookup_mem v (bech32CreateChecksum_lt _ _ _ h2)

/-- The account built from any mnemonic satisfies the length
invariants. -/
theorem deriveAccount_wellFormed (mn : String) :
    pipelineWellFormed (deriveAccountFromMnemonic mn) := by
  simp only [deriveAccountFromMnemonic, derivePrivateKeyForPath, pipelineWellFormed]
  apply account_build_wellFormed
  simp only [seiDerivationPath, List.foldl_cons, List.foldl_nil]
  exact derivePrivateKeyStep_length _ _ _ _

/-- C7: every Account returned by a successful generateAccount run has a
32-byte private key (64 hex characters), a 33-byte compressed public key
(66 hex characters), and an address that is the prefix sei, the separator
1, and data drawn from the lower-case bech32 charset. -/
theorem c7_account_length_invariants (wl : List String) (e : List Nat) :
    pipelineWellFormed (generateAccountGo wl (.ok e)) := by
  cases hm : newMnemonic wl e with
  | error err => simp [generateAccountGo, pipelineWellFormed, hm]
  | ok mn =>
    cases hd : deriveAccountFromMnemonic mn with
    | error err => simp [generateAccountGo, pipelineWellFormed, hm, hd]
    | ok acc =>
      have hwf := deriveAccount_wellFormed mn
      rw [hd] at hwf
      simp only [generateAccountGo, hm, hd]
      exact hwf

/-- Fixed-width bit rendering has exactly the requested width. -/
theorem natToBits_length : ∀ (w n : Nat), (natToBits w n).length = w := by
  intro w
  induction w with
  | zero => intro n; rfl
  | succ k ih => intro n; simp [natToBits, ih]

/-- Reading a bit list after appending one bit. -/
theorem bitsToNat_append_bit (l : List Bool) (b : Bool) :
    bitsToNat (l ++ [b]) = 2 * bitsToNat l + cond b 1 0 := by
  simp [bitsToNat, List.foldl_append]

/-- Reading back the fixed-width bits of a small number recovers it. -/
theorem bitsToNat_natToBits : ∀ (w n : Nat), n < 2 ^ w →
    bitsToNat (natToBits w n) = n := by
  intro w
  induction w with
  | zero => intro n h; interval_cases n; rfl
  | succ k ih =>
    intro n h
    rw [natToBits, bitsToNat_append_bit]
    have h2 : n / 2 < 2 ^ k := by
      rw [Nat.pow_succ] at h
      omega
    rw [ih _ h2]
    rcases Nat.mod_two_eq_zero_or_one n with hm | hm <;> simp [hm] <;> omega

/-- Rendering the value of a bit list of width w reproduces the list. -/
theorem natToBits_bitsToNat : ∀ (l : List Bool), natToBits l.length (bitsToNat l) = l := by
  intro l
  induction l using List.reverseRecOn with
  | nil => rfl
  | append_singleton xs b ih =>
    rw [List.length_append, List.length_singleton, bitsToNat_append_bit, natToBits]
    have hdiv : (2 * bitsToNat xs + cond b 1 0) / 2 = bitsToNat xs := by
      cases b <;> simp <;> omega
    have hmod : decide ((2 * bitsToNat xs + cond b 1 0) % 2 = 1) = b := by
      cases b <;> simp <;> omega
    rw [hdiv, hmod, ih]

/-- Bit lists of width w read back below 2^w. -/
theorem bitsToNat_lt : ∀ l : List Bool, bitsToNat l < 2 ^ l.length := by
  intro l
  induction l using List.reverseRecOn with
  | nil => simp [bitsToNat]
  | append_singleton xs b ih =>
    rw [bitsToNat_append_bit, List.length_append, List.length_singleton, Nat.pow_succ]
    cases b <;> simp <;> omega

/-- Flattening the chunks of a list reproduces the list. -/
theorem flatten_chunksGo (n : Nat) : ∀ (fuel : Nat) (l : List α), l.length ≤ fuel →
    (chunksGo n fuel l).flatten = l := by
  intro fuel
  induction fuel with
  | zero =>
    intro l h
    rw [List.length_eq_zero.mp (Nat.le_zero.mp h)]
    rfl
  | succ f ih =>
    intro l h
    match l with
    | [] => rfl
    | x :: xs =>
      rw [chunksGo, List.flatten_cons,
        ih (xs.drop n) (by simp only [List.length_drop, List.length_cons] at h ⊢; omega)]
      simp [List.take_succ_cons, List.cons_append, List.take_append_drop]

/-- Chunking a flattened list of uniform width n+1 gives back the
chunks. -/
theorem chunksGo_flatten_uniform (n : Nat) : ∀ (ll : List (List α)) (fuel : Nat),
    (∀ c ∈ ll, c.length = n + 1) → (ll.flatten).length ≤ fuel →
    chunksGo n fuel ll.flatten = ll := by
  intro ll
  induction ll with
  | nil => intro fuel _ _; cases fuel <;> rfl
  | cons c rest ih =>
    intro fuel hu hf
    have hc : c.length = n + 1 := hu c (List.mem_cons_self _ _)
    obtain ⟨x, xs, rfl⟩ : ∃ x xs, c = x :: xs := by
      cases c with
      | nil => simp at hc
      | cons x xs => exact ⟨x, xs, rfl⟩
    have hxs : xs.length = n := by simpa using hc
    cases fuel with
    | zero =>
      exfalso
      simp only [List.flatten_cons, List.length_append, List.length_cons] at hf
      omega
    | succ f =>
      have hstep : ((x :: xs) :: rest).flatten = x :: (xs ++ rest.flatten) := by simp
      rw [hstep, chunksGo]
      have htake : (x :: (xs ++ rest.flatten)).take (n + 1) = x :: xs := by
        rw [List.take_succ_cons, List.take_left' hxs]
      have hdrop : (xs ++ rest.flatten).drop n = rest.flatten := List.drop_left' hxs
      rw [htake, hdrop, ih f (fun d hd => hu d (List.mem_cons_of_mem _ hd))
        (by simp only [List.flatten_cons, List.length_append, List.length_cons] at hf; omega)]

/-- Every chunk of a list whose length is a multiple of n+1 has width
n+1. -/
theorem chunksGo_uniform (n : Nat) : ∀ (fuel : Nat) (l : List α),
    (n + 1) ∣ l.length → l.length ≤ fuel →
    ∀ c ∈ chunksGo n fuel l, c.length = n + 1 := by
  intro fuel
  induction fuel with
  | zero =>
    intro l _ h c hc
    rw [List.length_eq_zero.mp (Nat.le_zero.mp h)] at hc
    simp [chunksGo] at hc
  | succ f ih =>
    intro l hdvd h c hc
    cases l with
    | nil => simp [chunksGo] at hc
    | cons x xs =>
      have hge : n + 1 ≤ (x :: xs).length := Nat.le_of_dvd (by simp) hdvd
      rw [chunksGo] at hc
      rcases List.mem_cons.mp hc with rfl | ht
      · simp only [List.length_take, List.length_cons]
        simp only [List.length_cons] at hge
        omega
      · have hdl : (xs.drop n).length = xs.length - n := by simp
        have hd2 : (n + 1) ∣ (xs.drop n).length := by
          rcases hdvd with ⟨k, hk⟩
          simp only [List.length_cons] at hk hge
          rcases Nat.eq_zero_or_pos k with rfl | hpos
          · simp at hk
          · refine ⟨k - 1, ?_⟩
            rw [hdl]
            have hmul : (n + 1) * k = (n + 1) * (k - 1) + (n + 1) := by
              conv_lhs => rw [← Nat.succ_pred_eq_of_pos hpos]
              rw [Nat.mul_succ]
              rfl
            omega
        exact ih (xs.drop n) hd2
          (by simp only [List.length_drop]
              simp only [List.length_cons] at h
              omega) c ht

/-- The number of chunks of a list whose length is a multiple of n+1. -/
theorem chunksGo_count (n : Nat) : ∀ (fuel : Nat) (l : List α),
    (n + 1) ∣ l.length → l.length ≤ fuel →
    (chunksGo n fuel l).length = l.length / (n + 1) := by
  intro fuel
  induction fuel with
  | zero =>
    intro l _ h
    rw [List.length_eq_zero.mp (Nat.le_zero.mp h)]
    simp [chunksGo]
  | succ f ih =>
    intro l hdvd h
    cases l with
    | nil => simp [chunksGo]
    | cons x xs =>
      have hge : n + 1 ≤ (x :: xs).length := Nat.le_of_dvd (by simp) hdvd
      rw [chunksGo]
      rcases hdvd with ⟨k, hk⟩
      simp only [List.length_cons] at hk hge h
      rcases Nat.eq_zero_or_pos k with rfl | hpos
      · simp at hk
      · have hmul : (n + 1) * k = (n + 1) * (k - 1) + (n + 1) := by
          conv_lhs => rw [← Nat.succ_pred_eq_of_pos hpos]
          rw [Nat.mul_succ]
          rfl
        have hd2 : (xs.drop n).length = (n + 1) * (k - 1) := by
          simp only [List.length_drop]
          omega
        have hrec := ih (xs.drop n) ⟨k - 1, hd2⟩ (by simp only [List.length_drop]; omega)
        simp only [List.length_cons]
        rw [hrec, hd2, hk]
        rw [Nat.mul_div_cancel_left _ (Nat.succ_pos n), Nat.mul_div_cancel_left _ (Nat.succ_pos n)]
        omega

/-- SHA-256 digests are 32 bytes. -/
theorem sha256_length (msg : List Nat) : (sha256 msg).length = 32 := by
  simp [sha256, toBytesBE_length]

/-- Byte strings expand to 8 bits per byte. -/
theorem bytesToBits_length : ∀ bs : List Nat, (bytesToBits bs).length = 8 * bs.length := by
  intro bs
  induction bs with
  | nil => rfl
  | cons b rest ih =>
    simp only [bytesToBits, List.map_cons, List.flatten_cons, List.length_append,
      natToBits_length, List.length_cons] at ih ⊢
    omega

/-- In a duplicate-free list, looking a word up by index and back gives
the index. -/
theorem indexOf_getD_self : ∀ l : List String, l.Nodup → ∀ i, i < l.length →
    l.indexOf (l.getD i "") = i := by
  intro l
  induction l with
  | nil => intro _ i h; simp at h
  | cons x xs ih =>
    intro hnd i h
    rcases List.nodup_cons.mp hnd with ⟨hx, hxs⟩
    cases i with
    | zero => simp [List.indexOf_cons]
    | succ j =>
      have hj : j < xs.length := by simpa using h
      have hmem : xs.getD j "" ∈ xs := by
        rw [List.getD_eq_getElem _ _ hj]
        exact List.getElem_mem hj
      have hne : (x == xs.getD j "") = false := by
        have hxne : x ≠ xs.getD j "" := fun he => hx (he ▸ hmem)
        simpa using hxne
      rw [List.getD_cons_succ, List.indexOf_cons, hne, cond_false, ih hxs j hj]

/-- C8: mnemonic encoding round-trips: for every entropy of the valid
256-bit size, decoding the mnemonic produced by bip39.NewMnemonic
recovers exactly the original entropy bytes, with the embedded checksum
validating.  The word list is any duplicate-free list of the standard
2048-word size, as the English list is. -/
theorem c8_mnemonic_roundtrip (wl : List String) (hwl : wl.length = 2048)
    (hnd : wl.Nodup) (e : List Nat) (he : e.length = 32) (hb : ∀ b ∈ e, b < 256) :
    ∃ words, newMnemonicWords wl e = .ok words ∧
      entropyFromMnemonic wl words = .ok e := by
  have hvalid : validEntropyLength e.length = true := by rw [he]; decide
  have hcs4 : e.length / 4 = 8 := by rw [he]
  have hidx : entropyToIndices e =
      .ok ((chunksOf 10 (bytesToBits e ++ (bytesToBits (sha256 e)).take 8)).map bitsToNat) := by
    simp only [entropyToIndices, hvalid, if_true, hcs4]
  have hwords : newMnemonicWords wl e =
      .ok (((chunksOf 10 (bytesToBits e ++ (bytesToBits (sha256 e)).take 8)).map
        bitsToNat).map (fun i => wl.getD i "")) := by
    rw [newMnemonicWords, hidx]
    rfl
  refine ⟨_, hwords, ?_⟩
  set A := bytesToBits e ++ (bytesToBits (sha256 e)).take 8 with hAdef
  set ws := ((chunksOf 10 A).map bitsToNat).map (fun i => wl.getD i "") with hwsdef
  have hentlen : (bytesToBits e).length = 256 := by rw [bytesToBits_length, he]
  have hA : A.length = 264 := by
    rw [hAdef]
    simp only [List.length_append, List.length_take, hentlen, sha256_length, bytesToBits_length]
    norm_num
  have hdvd : (10 + 1) ∣ A.length := by rw [hA]; decide
  have hunif : ∀ c ∈ chunksOf 10 A, c.length = 11 :=
    chunksGo_uniform 10 A.length A hdvd (Nat.le_refl _)
  have hflat : (chunksOf 10 A).flatten = A :=
    flatten_chunksGo 10 A.length A (Nat.le_refl _)
  have hcount : (chunksOf 10 A).length = 24 := by
    rw [chunksOf, chunksGo_count 10 A.length A hdvd (Nat.le_refl _), hA]
  have hidxlt : ∀ i ∈ (chunksOf 10 A).map bitsToNat, i < 2048 := by
    intro i hi
    rcases List.mem_map.mp hi with ⟨c, hc, rfl⟩
    have hlt := bitsToNat_lt c
    rw [hunif c hc] at hlt
    simpa using hlt
  have hwlen : ws.length = 24 := by
    rw [hwsdef]
    simp [hcount]
  have hvwc : validWordCount ws.length = true := by rw [hwlen]; decide
  have hmapIdx : ws.map (fun w => wl.indexOf w) = (chunksOf 10 A).map bitsToNat := by
    rw [hwsdef, List.map_map]
    have hcongr : ∀ i ∈ (chunksOf 10 A).map bitsToNat,
        ((fun w => wl.indexOf w) ∘ (fun i => wl.getD i "")) i = i := by
      intro i hi
      simp only [Function.comp_apply]
      exact indexOf_getD_self wl hnd i (by rw [hwl]; exact hidxlt i hi)
    rw [List.map_congr_left hcongr, List.map_id']
  have hany : (ws.map (fun w => wl.indexOf w)).any (fun i => wl.length ≤ i) = false := by
    rw [hmapIdx]
    apply List.any_eq_false.mpr
    intro i hi
    have hlt := hidxlt i hi
    simp only [decide_eq_true_eq, hwl]
    omega
  have hbits : ((ws.map (fun w => wl.indexOf w)).map (natToBits 11)).flatten = A := by
    rw [hmapIdx, List.map_map]
    have hcongr2 : ∀ c ∈ chunksOf 10 A, (natToBits 11 ∘ bitsToNat) c = c := by
      intro c hc
      simp only [Function.comp_apply]
      rw [← hunif c hc]
      exact natToBits_bitsToNat c
    rw [List.map_congr_left hcongr2, List.map_id', hflat]
  have hent : bitsToBytes (bytesToBits e) = e := by
    rw [bitsToBytes, bytesToBits, chunksOf]
    have huni8 : ∀ c ∈ e.map (natToBits 8), c.length = 7 + 1 := by
      intro c hc
      rcases List.mem_map.mp hc with ⟨b, _, rfl⟩
      exact natToBits_length 8 b
    rw [chunksGo_flatten_uniform 7 (e.map (natToBits 8)) _ huni8 (Nat.le_refl _)]
    rw [List.map_map]
    have hcongr3 : ∀ b ∈ e, (bitsToNat ∘ natToBits 8) b = b := by
      intro b hbm
      simp only [Function.comp_apply]
      exact bitsToNat_natToBits 8 b (by have := hb b hbm; omega)
    rw [List.map_congr_left hcongr3, List.map_id']
  have htake : A.take 256 = bytesToBits e := List.take_left' hentlen
  have hdrop : A.drop 256 = (bytesToBits (sha256 e)).take 8 := List.drop_left' hentlen
  simp only [entropyFromMnemonic, hvwc, if_true, hany, Bool.false_eq_true, if_false,
    hbits, hwlen, hA]
  norm_num
  rw [htake, hdrop, hent]
  simp
  decide

/-- C2: the all-zero-entropy vector: for the fixed input entropy of 32
zero bytes, the pipeline produces the standard 24-word mnemonic (23 times
abandon, then art, forced by the SHA-256 checksum byte 0x66), and
deriving from that exact mnemonic with the empty passphrase at the fixed
path yields one specific account and address, identical on every run. -/
theorem c2_zero_entropy_mnemonic (wl : List String)
    (h0 : wl.getD 0 "" = "abandon") (h102 : wl.getD 102 "" = "art") :
    newMnemonic wl zeroEntropy = .ok zeroMnemonicSentence ∧
    ∃ acc : Account, deriveAccountFromMnemonic zeroMnemonicSentence = .ok acc ∧
      deriveAccountFromMnemonic zeroMnemonicSentence = .ok acc := by
  constructor
  · have h1 : entropyToIndices zeroEntropy = .ok (List.replicate 23 0 ++ [102]) := by
      decide
    rw [newMnemonic, newMnemonicWords, h1]
    simp only [Except.map, List.map_append, List.map_replicate, List.map_cons,
      List.map_nil, h0, h102, Except.ok.injEq]
    decide
  · simp only [deriveAccountFromMnemonic, derivePrivateKeyForPath]
    exact ⟨_, rfl, rfl⟩

/-- C2 witness: the vector theorem applied to a concrete word list whose
entries 0 and 102 are abandon and art. -/
theorem c2_zero_entropy_mnemonic_witness :
    newMnemonic wlVector zeroEntropy = .ok zeroMnemonicSentence ∧
    ∃ acc : Account, deriveAccountFromMnemonic zeroMnemonicSentence = .ok acc ∧
      deriveAccountFromMnemonic zeroMnemonicSentence = .ok acc :=
  c2_zero_entropy_mnemonic wlVector (by decide) (by decide)

/-- C8 witness: the round-trip theorem applied to a concrete
duplicate-free 2048-word list and the all-zero 32-byte entropy. -/
theorem c8_mnemonic_roundtrip_witness :
    wlUnary.length = 2048 ∧ wlUnary.Nodup ∧ zeroEntropy.length = 32 ∧
    ∃ words, newMnemonicWords wlUnary zeroEntropy = .ok words ∧
      entropyFromMnemonic wlUnary words = .ok zeroEntropy :=
  have hlen : wlUnary.length = 2048 := by simp [wlUnary]
  have hinj : Function.Injective (fun n => String.mk (List.replicate n 'a')) := by
    intro a b hab
    have h2 : List.replicate a 'a' = List.replicate b 'a' := congrArg String.data hab
    have h3 := congrArg List.length h2
    simpa using h3
  have hnd : wlUnary.Nodup := by
    rw [wlUnary]
    exact List.Nodup.map hinj (List.nodup_range 2048)
  ⟨hlen, hnd, by simp [zeroEntropy],
    c8_mnemonic_roundtrip wlUnary hlen hnd zeroEntropy (by simp [zeroEntropy])
      (fun b hbm => by
        rw [zeroEntropy] at hbm
        simp [List.mem_replicate] at hbm
        omega)⟩
